import Mathlib

/-!
Shallow embedding of the bank reconciliation backend
(src/backend/processing.py, src/backend/main.py, src/backend/models.py).

Machine reals (Python floats) are modelled as rationals, calendar dates as
naturals (ordered day codes), and transaction ids as naturals.  Fallible
endpoint code is modelled with Except; the in-memory dictionary db of
main.py is the structure DB below.
-/

namespace BankRecon

instance {ε α : Type} [DecidableEq ε] [DecidableEq α] : DecidableEq (Except ε α) :=
  fun x y =>
    match x, y with
    | .error a, .error b =>
      if h : a = b then .isTrue (by rw [h]) else .isFalse (fun hh => h (Except.error.inj hh))
    | .error _, .ok _ => .isFalse (fun hh => Except.noConfusion hh)
    | .ok _, .error _ => .isFalse (fun hh => Except.noConfusion hh)
    | .ok a, .ok b =>
      if h : a = b then .isTrue (by rw [h]) else .isFalse (fun hh => h (Except.ok.inj hh))

/-! ## Currency normalizer: processing.format_currency -/

/-- Character class stripped by Python str.strip (the whitespace that can
occur in currency cells). -/
def isWsChar (c : Char) : Bool := c = ' ' || c = '\t' || c = '\n' || c = '\r'

/-- Python str.strip: drop whitespace from both ends. -/
def pyStrip (l : List Char) : List Char :=
  ((l.dropWhile isWsChar).reverse.dropWhile isWsChar).reverse

def digitVal (c : Char) : ℕ := c.toNat - '0'.toNat

/-- Value of a digit string read left to right. -/
def digitsVal (l : List Char) : ℕ := l.foldl (fun a c => 10 * a + digitVal c) 0

/-- Python float() on an already-stripped character list, restricted to the
plain decimal grammar (optional sign, integer digits, optional point and
fraction digits).  Any other shape raises ValueError in Python; here it is
none. -/
def pyFloatCore (l : List Char) : Option ℚ :=
  let ip := l.takeWhile Char.isDigit
  let rest := l.dropWhile Char.isDigit
  match rest with
  | [] => if ip.isEmpty then none else some ((digitsVal ip : ℚ))
  | c :: fr =>
    if c = '.' then
      if fr.all Char.isDigit && !(ip.isEmpty && fr.isEmpty) then
        some ((digitsVal ip : ℚ) + (digitsVal fr : ℚ) / 10 ^ fr.length)
      else none
    else none

def pyFloat (l : List Char) : Option ℚ :=
  match l with
  | [] => none
  | c :: r =>
    if c = '-' then (pyFloatCore r).map (fun q => -q)
    else if c = '+' then pyFloatCore r
    else pyFloatCore l

/-- processing.format_currency on a string cell: remove the dollar sign,
strip whitespace, remove commas (thousands separators), then parse with the
period as the decimal mark; on parse failure return 0.0 with a warning. -/
def format_currency (s : String) : ℚ :=
  let c1 := s.toList.filter (fun c => decide (c ≠ '$'))
  let c2 := pyStrip c1
  let c3 := c2.filter (fun c => decide (c ≠ ','))
  (pyFloat c3).getD 0

/-! ## Python round(x, 2): banker's rounding to two decimals -/

/-- Round half to even, as Python round does on the scaled value
(Rat.floor is the executable floor of a rational). -/
def roundHalfEven (q : ℚ) : ℤ :=
  let f : ℤ := Rat.floor q
  if q - f < 1 / 2 then f
  else if (1 : ℚ) / 2 < q - f then f + 1
  else if f % 2 = 0 then f else f + 1

/-- round(q, 2). -/
def round2 (q : ℚ) : ℚ := ((roundHalfEven (q * 100) : ℚ)) / 100

/-- main.dataframe_to_transactions, bank branch: amount =
round(float(row[movimiento]), 2). -/
def bankAmount (mov : ℚ) : ℚ := round2 mov

/-- main.dataframe_to_transactions, accounting branch: amount =
round(debito - credito, 2). -/
def accountingAmount (deb cred : ℚ) : ℚ := round2 (deb - cred)

/-! ## Canonical transactions and the matching engine
(processing.reconcile_data) -/

/-- A canonical transaction as held in the in-memory store (models.Transaction
without the display-only description; the side is given by which DB list the
record sits in). -/
structure Tx where
  id : ℕ
  date : ℕ
  amount : ℚ
deriving DecidableEq, Repr

/-- Ascending (amount, date) order used by
sort_values(by=[movimiento, fecha_norm]). -/
def keyLe (x y : Tx) : Prop :=
  x.amount < y.amount ∨ (x.amount = y.amount ∧ x.date ≤ y.date)

instance : DecidableRel keyLe := fun x y => by
  unfold keyLe; infer_instance

/-- Stable ascending sort by (amount, date), modelling
df.sort_values(by=[movimiento, fecha_norm]). -/
def sortTx (l : List Tx) : List Tx := List.insertionSort keyLe l

def sameAmt (a : ℚ) (y : Tx) : Bool := decide (y.amount = a)

/-- groupby(movimiento).cumcount(): pair each record of the (sorted) list with
the number of earlier records of the same amount. -/
def ccAux (prev : List Tx) : List Tx → List (Tx × ℕ)
  | [] => []
  | x :: xs => (x, prev.countP (sameAmt x.amount)) :: ccAux (prev ++ [x]) xs

/-- Sort by (amount, date), then attach the per-amount cumcount ordinal
(the contador column of reconcile_data). -/
def withOrd (l : List Tx) : List (Tx × ℕ) := ccAux [] (sortTx l)

/-- Merge key test: same movimiento and same contador. -/
def keyHit (a : ℚ) (k : ℕ) (e : Tx × ℕ) : Bool :=
  decide (e.1.amount = a) && decide (e.2 = k)

/-- The successfully reconciled rows of processing.reconcile_data: the rows of
the outer merge of ledger and statement on (movimiento, contador) whose merge
indicator is both, as (ledger record, statement record) pairs.  Rows whose key
is present on only one side are the pending rows and do not appear here. -/
def reconcileData (ledger statement : List Tx) : List (Tx × Tx) :=
  (withOrd ledger).filterMap (fun e =>
    ((withOrd statement).find? (keyHit e.1.amount e.2)).map (fun e2 => (e.1, e2.1)))

/-- The ordinal the spec describes: the number of same-amount records of the
list with a strictly earlier date (so the k-th earliest-dated record of a
given amount gets ordinal k). -/
def specOrd (l : List Tx) (x : Tx) : ℕ :=
  l.countP (fun y => decide (y.amount = x.amount) && decide (y.date < x.date))

def keyOf (x : Tx) : ℚ × ℕ := (x.amount, x.date)

/-- No two records of the list share both amount and date (makes
"k-th earliest-dated record of a given amount" well defined). -/
def keysNodup (l : List Tx) : Prop := (l.map keyOf).Nodup

instance (l : List Tx) : Decidable (keysNodup l) := by
  unfold keysNodup; infer_instance

/-! ## The in-memory store and the API endpoints (main.py) -/

/-- models.MatchedPair. -/
structure Pair where
  bankId : ℕ
  accId : ℕ
deriving DecidableEq, Repr

/-- The global in-memory db dictionary of main.py. -/
structure DB where
  bank : List Tx
  accounting : List Tx
  pairs : List Pair
deriving DecidableEq, Repr

/-- main.find_transaction restricted to one side's list. -/
def findTxIn (l : List Tx) (i : ℕ) : Option Tx :=
  l.find? (fun t => decide (t.id = i))

def pairsHasBank (ps : List Pair) (i : ℕ) : Bool :=
  ps.any (fun p => decide (p.bankId = i))

def pairsHasAcc (ps : List Pair) (i : ℕ) : Bool :=
  ps.any (fun p => decide (p.accId = i))

/-- The derived unmatched view of the bank side (main.get_initial_transactions
and the candidate selection of reconcile_auto). -/
def unmatchedBank (st : DB) : List Tx :=
  st.bank.filter (fun t => !(pairsHasBank st.pairs t.id))

def unmatchedAcc (st : DB) : List Tx :=
  st.accounting.filter (fun t => !(pairsHasAcc st.pairs t.id))

inductive ApiErr where
  | recordNotFound : ℕ → ApiErr
  | alreadyReconciled : ℕ → ApiErr
  | badRequest : ApiErr
deriving DecidableEq, Repr

/-- Validation phase of main.reconcile_manual (1:1), in source order: the
already-reconciled checks on both ids come first, then the existence checks.
No db mutation happens during validation. -/
def reconcileManualE (st : DB) (bankId accId : ℕ) : Except ApiErr Pair :=
  if pairsHasBank st.pairs bankId then .error (.alreadyReconciled bankId)
  else if pairsHasAcc st.pairs accId then .error (.alreadyReconciled accId)
  else
    match findTxIn st.bank bankId with
    | none => .error (.recordNotFound bankId)
    | some _ =>
      match findTxIn st.accounting accId with
      | none => .error (.recordNotFound accId)
      | some _ => .ok (Pair.mk bankId accId)

/-- main.reconcile_manual: on validation success the single new pair is
appended to db[matched_pairs]; a raised HTTPException leaves db untouched. -/
def reconcileManual (st : DB) (bankId accId : ℕ) : DB × Except ApiErr Pair :=
  match reconcileManualE st bankId accId with
  | .error e => (st, .error e)
  | .ok p => ({ st with pairs := st.pairs ++ [p] }, .ok p)

/-- The per-id validation loop of main.reconcile_manual_many_to_one: duplicates
in the request are skipped, each remaining id is looked up (404 RecordNotFound)
and then checked against existing pairs (400 AlreadyReconciled); the found
transactions are accumulated without touching db. -/
def validateAccIds (st : DB) (processed : List ℕ) (acc : List Tx) :
    List ℕ → Except ApiErr (List Tx)
  | [] => .ok acc
  | i :: rest =>
    if i ∈ processed then validateAccIds st processed acc rest
    else
      match findTxIn st.accounting i with
      | none => .error (.recordNotFound i)
      | some t =>
        if pairsHasAcc st.pairs i then .error (.alreadyReconciled i)
        else validateAccIds st (processed ++ [i]) (acc ++ [t]) rest

/-- Validation phase of main.reconcile_manual_many_to_one: non-empty request,
bank id existence, bank id not already in a pair, then the accounting-id
loop. -/
def manyToOneE (st : DB) (bankId : ℕ) (accIds : List ℕ) : Except ApiErr (List Tx) :=
  if accIds.isEmpty then .error .badRequest
  else
    match findTxIn st.bank bankId with
    | none => .error (.recordNotFound bankId)
    | some _ =>
      if pairsHasBank st.pairs bankId then .error (.alreadyReconciled bankId)
      else validateAccIds st [] [] accIds

/-- main.reconcile_manual_many_to_one: after validation, one pair per
validated accounting transaction is appended; on error db is untouched. -/
def manyToOne (st : DB) (bankId : ℕ) (accIds : List ℕ) :
    DB × Except ApiErr (List Pair) :=
  match manyToOneE st bankId accIds with
  | .error e => (st, .error e)
  | .ok accTxs =>
    let ps := accTxs.map (fun t => Pair.mk bankId t.id)
    ({ st with pairs := st.pairs ++ ps }, .ok ps)

/-- The per-id validation loop of main.reconcile_manual_one_to_many (bank side
of the symmetric endpoint). -/
def validateBankIds (st : DB) (processed : List ℕ) (acc : List Tx) :
    List ℕ → Except ApiErr (List Tx)
  | [] => .ok acc
  | i :: rest =>
    if i ∈ processed then validateBankIds st processed acc rest
    else
      match findTxIn st.bank i with
      | none => .error (.recordNotFound i)
      | some t =>
        if pairsHasBank st.pairs i then .error (.alreadyReconciled i)
        else validateBankIds st (processed ++ [i]) (acc ++ [t]) rest

/-- Validation phase of main.reconcile_manual_one_to_many. -/
def oneToManyE (st : DB) (accId : ℕ) (bankIds : List ℕ) : Except ApiErr (List Tx) :=
  if bankIds.isEmpty then .error .badRequest
  else
    match findTxIn st.accounting accId with
    | none => .error (.recordNotFound accId)
    | some _ =>
      if pairsHasAcc st.pairs accId then .error (.alreadyReconciled accId)
      else validateBankIds st [] [] bankIds

/-- main.reconcile_manual_one_to_many. -/
def oneToMany (st : DB) (accId : ℕ) (bankIds : List ℕ) :
    DB × Except ApiErr (List Pair) :=
  match oneToManyE st accId bankIds with
  | .error e => (st, .error e)
  | .ok bankTxs =>
    let ps := bankTxs.map (fun t => Pair.mk t.id accId)
    ({ st with pairs := st.pairs ++ ps }, .ok ps)

/-- main.transactions_to_dataframe reconstructs debito/credito from the signed
accounting amount, and reconcile_data recomputes movimiento = debito -
credito; this is the round trip applied to each ledger row. -/
def ledgerRow (t : Tx) : Tx :=
  { t with amount :=
      (if 0 ≤ t.amount then t.amount else 0) - (if t.amount < 0 then -t.amount else 0) }

/-- The commit loop of main.reconcile_auto (lines 620-633): walk the
reconciled rows, skip a row if either id was already consumed, otherwise
append the new pair and consume both ids. -/
def commitLoop : List (Tx × Tx) → List ℕ → List ℕ → List Pair
  | [], _, _ => []
  | p :: rest, ca, cb =>
    if p.1.id ∉ ca ∧ p.2.id ∉ cb then
      Pair.mk p.2.id p.1.id :: commitLoop rest (ca ++ [p.1.id]) (cb ++ [p.2.id])
    else commitLoop rest ca cb

/-- The new pairs committed by one call of main.reconcile_auto: recompute the
unmatched views, return nothing if either side is empty, otherwise reconcile
the two sides (ledger = accounting) and commit the rows whose ids are not yet
consumed by existing pairs. -/
def autoNewPairs (st : DB) : List Pair :=
  let ua := unmatchedAcc st
  let ub := unmatchedBank st
  if ua.isEmpty || ub.isEmpty then []
  else
    commitLoop (reconcileData (ua.map ledgerRow) ub)
      (st.pairs.map Pair.accId) (st.pairs.map Pair.bankId)

/-- main.reconcile_auto's effect on db: append the newly committed pairs. -/
def autoStep (st : DB) : DB := { st with pairs := st.pairs ++ autoNewPairs st }

inductive Side where
  | bank
  | accounting
deriving DecidableEq, Repr

def sideTxs (st : DB) : Side → List Tx
  | .bank => st.bank
  | .accounting => st.accounting

/-- main.upload_and_process_file, lines 296-301: on a successful ingestion the
uploaded side's collection is replaced wholesale and all committed pairs are
cleared. -/
def uploadCommit (st : DB) (side : Side) (txs : List Tx) : DB :=
  match side with
  | .bank => { st with bank := txs, pairs := [] }
  | .accounting => { st with accounting := txs, pairs := [] }

/-- main.clear_all_data (confirmed branch). -/
def clearAllData (_ : DB) : DB := { bank := [], accounting := [], pairs := [] }

/-- The referential-integrity invariant: every committed pair points at a
stored bank transaction and a stored accounting transaction. -/
def wfDB (st : DB) : Prop :=
  ∀ p ∈ st.pairs,
    (∃ t ∈ st.bank, t.id = p.bankId) ∧ (∃ t ∈ st.accounting, t.id = p.accId)

instance (st : DB) : Decidable (wfDB st) := by
  unfold wfDB; infer_instance

/-! ## SIESA auxiliary ingestion (processing.transform_siesa_auxiliary) -/

/-- A raw spreadsheet cell: none models NaN. -/
abbrev Cell := Option String

abbrev RawRow := List Cell

/-- The regex replace of whitespace-only cells by NA. -/
def normalizeCell (c : Cell) : Cell :=
  match c with
  | none => none
  | some s => if s.toList.all isWsChar then none else some s

def rowNonEmpty (r : RawRow) : Bool := r.any (fun c => c.isSome)

/-- dropna(how=all), blank-to-NA replace, dropna(how=all) again. -/
def dropEmptyRows (t : List RawRow) : List RawRow :=
  ((t.filter rowNonEmpty).map (fun r => r.map normalizeCell)).filter rowNonEmpty

/-- unidecode restricted to the Spanish accented letters that occur in the
headers this pipeline matches; other characters are unchanged. -/
def deAccent (c : Char) : Char :=
  if c = 'á' ∨ c = 'Á' then if c = 'á' then 'a' else 'A'
  else if c = 'é' ∨ c = 'É' then if c = 'é' then 'e' else 'E'
  else if c = 'í' ∨ c = 'Í' then if c = 'í' then 'i' else 'I'
  else if c = 'ó' ∨ c = 'Ó' then if c = 'ó' then 'o' else 'O'
  else if c = 'ú' ∨ c = 'Ú' then if c = 'ú' then 'u' else 'U'
  else if c = 'ñ' ∨ c = 'Ñ' then if c = 'ñ' then 'n' else 'N'
  else if c = 'ü' ∨ c = 'Ü' then if c = 'ü' then 'u' else 'U'
  else c

/-- processing.clean_text: strip accents, lowercase, strip whitespace. -/
def clean_text (s : String) : String :=
  String.mk (pyStrip ((s.toList.map deAccent).map Char.toLower))

/-- The cleaned non-NA cell values of a row (the set used by the header
scan). -/
def rowCleanVals (r : RawRow) : List String :=
  (r.filterMap id).map clean_text

/-- A row qualifies as the SIESA header when its cleaned values contain Fecha,
Documento, a debito variant and a credito variant. -/
def hasHeaderKeys (r : RawRow) : Bool :=
  let vs := rowCleanVals r
  (vs.contains "fecha" && vs.contains "documento") &&
    ((vs.contains "debito" || vs.contains "debitos") &&
      (vs.contains "credito" || vs.contains "creditos"))

/-- The scanning loop over (index, row) pairs. -/
def findHeaderIdxAux : ℕ → List RawRow → Option ℕ
  | _, [] => none
  | i, r :: rest => if hasHeaderKeys r then some i else findHeaderIdxAux (i + 1) rest

/-- Scan the first 50 rows for the first header row
(max_rows_to_scan = 50). -/
def findHeaderIdx (t : List RawRow) : Option ℕ :=
  findHeaderIdxAux 0 (t.take 50)

/-- Column names taken from the detected header row: the stripped literal
value, or a positional unnamed placeholder for NA cells. -/
def detectedCols (r : RawRow) : List String :=
  r.enum.map (fun p =>
    match p.2 with
    | some s => String.mk (pyStrip s.toList)
    | none => "unnamed_" ++ toString p.1)

def essentialKeys : List String :=
  ["fecha", "documento", "debito", "debitos", "credito", "creditos"]

/-- Indices of the essential columns (fecha, documento, debito(s),
credito(s)) among the detected column names. -/
def essentialIdxs (cols : List String) : List ℕ :=
  (cols.enum.filter (fun p => essentialKeys.contains (clean_text p.2))).map Prod.fst

/-- Last column index whose cleaned name equals the key: the Python dict
comprehension lets later duplicate names overwrite earlier ones. -/
def colFind (cols : List String) (key : String) : Option ℕ :=
  ((cols.enum.reverse.find? (fun p => decide (clean_text p.2 = key))).map Prod.fst)

def getCell (r : RawRow) (j : ℕ) : Cell := (r.get? j).join

/-- Day-code of a calendar date, or none when out of range. -/
def mkDate (d m y : ℕ) : Option ℕ :=
  if 1 ≤ d ∧ d ≤ 31 ∧ 1 ≤ m ∧ m ≤ 12 then some (y * 10000 + m * 100 + d) else none

/-- Models processing.format_date_robust on its explicit formats: day-first
dates with slash or dash separators and a four-digit year, and eight-digit
DDMMYYYY then YYYYMMDD strings; anything else is none (an unparsable date). -/
def parseDateStr (s : String) : Option ℕ :=
  let t := pyStrip s.toList
  if t.length = 8 ∧ t.all Char.isDigit then
    match mkDate (digitsVal (t.take 2)) (digitsVal ((t.drop 2).take 2))
        (digitsVal (t.drop 4)) with
    | some v => some v
    | none =>
      mkDate (digitsVal (t.drop 6)) (digitsVal ((t.drop 4).take 2))
        (digitsVal (t.take 4))
  else
    match (String.mk t).split (fun c => c = '/' || c = '-') with
    | [a, b, c] =>
      if (a.toList.all Char.isDigit ∧ ¬a.isEmpty) ∧
          (b.toList.all Char.isDigit ∧ ¬b.isEmpty) ∧
          (c.toList.all Char.isDigit ∧ c.length = 4) then
        mkDate (digitsVal a.toList) (digitsVal b.toList) (digitsVal c.toList)
      else none
    | _ => none

def parseDateCell (c : Cell) : Option ℕ :=
  match c with
  | none => none
  | some s => parseDateStr s

/-- format_currency applied to a cell: pd.isna(value) gives 0.0. -/
def fcCell (c : Cell) : ℚ :=
  match c with
  | none => 0
  | some s => format_currency s

/-- astype(str): NaN prints as the string nan. -/
def cellStr (c : Cell) : String :=
  match c with
  | none => "nan"
  | some s => s

/-- A row of the canonical SIESA output frame
(AUXILIAR_COLUMNAS_FINALES). -/
structure SiesaRow where
  fecha : ℕ
  documento : String
  descripcion : String
  debito : ℚ
  credito : ℚ
deriving DecidableEq, Repr

inductive SiesaErr where
  | headerNotFound
  | missingColumns
deriving DecidableEq, Repr

/-- Build one canonical row from a data row given the resolved column
indices; none when the date does not parse (such rows are dropped). -/
def siesaRowOf (fIdx dIdx debIdx credIdx : ℕ) (descIdx : Option ℕ)
    (r : RawRow) : Option SiesaRow :=
  match parseDateCell (getCell r fIdx) with
  | none => none
  | some dt =>
    some
      { fecha := dt
        documento := cellStr (getCell r dIdx)
        descripcion :=
          match descIdx with
          | some j => cellStr (getCell r j)
          | none => ""
        debito := fcCell (getCell r debIdx)
        credito := fcCell (getCell r credIdx) }

/-- processing.transform_siesa_auxiliary up to the raised errors: ValueError
on a missing header (headerNotFound), KeyError on missing essential columns
(missingColumns); ok none models the return None branches for empty data. -/
def siesaCore (t : List RawRow) : Except SiesaErr (Option (List SiesaRow)) :=
  let rows := dropEmptyRows t
  match findHeaderIdx rows with
  | none => .error .headerNotFound
  | some i =>
    let cols := detectedCols ((rows.get? i).getD [])
    let data0 := rows.drop (i + 1)
    let essIdx := essentialIdxs cols
    let data1 :=
      if essIdx.isEmpty then data0
      else data0.filter (fun r => essIdx.any (fun j => (getCell r j).isSome))
    if data1.isEmpty then .ok none
    else
      match colFind cols "fecha", colFind cols "documento",
          (colFind cols "debito").orElse (fun _ => colFind cols "debitos"),
          (colFind cols "credito").orElse (fun _ => colFind cols "creditos") with
      | some fIdx, some dIdx, some debIdx, some credIdx =>
        let descIdx :=
          match colFind cols "descripcion_transaccion" with
          | some j => some j
          | none => if 4 < cols.length then some 4 else none
        let final := data1.filterMap (siesaRowOf fIdx dIdx debIdx credIdx descIdx)
        if final.isEmpty then .ok none else .ok (some final)
      | _, _, _, _ => .error .missingColumns

/-- processing.transform_siesa_auxiliary: every raised error is caught at the
function boundary and turned into None (no canonical records). -/
def transform_siesa_auxiliary (t : List RawRow) : Option (List SiesaRow) :=
  match siesaCore t with
  | .error _ => none
  | .ok r => r

/-! ## Helper lemmas -/

theorem isDigit_ne {c : Char} (h : c.isDigit = true) {d : Char}
    (hd : d.isDigit = false) : c ≠ d := by
  intro e; subst e; rw [h] at hd; exact Bool.noConfusion hd

theorem not_ws_of_digit {c : Char} (h : c.isDigit = true) : isWsChar c = false := by
  have h1 : c ≠ ' ' := isDigit_ne h (by decide)
  have h2 : c ≠ '\t' := isDigit_ne h (by decide)
  have h3 : c ≠ '\n' := isDigit_ne h (by decide)
  have h4 : c ≠ '\r' := isDigit_ne h (by decide)
  unfold isWsChar
  simp only [Bool.or_eq_false_iff, decide_eq_false_iff_not]
  exact ⟨⟨⟨h1, h2⟩, h3⟩, h4⟩

theorem dropWhile_eq_self_of {p : Char → Bool} {l : List Char}
    (h : ∀ c ∈ l, p c = false) : l.dropWhile p = l := by
  cases l with
  | nil => rfl
  | cons c cs => simp [List.dropWhile_cons, h c (List.mem_cons_self c cs)]

theorem pyStrip_eq_self {l : List Char} (h : ∀ c ∈ l, isWsChar c = false) :
    pyStrip l = l := by
  unfold pyStrip
  rw [dropWhile_eq_self_of h, dropWhile_eq_self_of (fun c hc => h c (List.mem_reverse.mp hc)),
    List.reverse_reverse]

theorem takeWhile_append_all {p : Char → Bool} :
    ∀ {u : List Char}, (∀ c ∈ u, p c = true) →
      ∀ (v : List Char), (u ++ v).takeWhile p = u ++ v.takeWhile p := by
  intro u
  induction u with
  | nil => intro _ v; rfl
  | cons c cs ih =>
    intro h v
    have hc : p c = true := h c (List.mem_cons_self c cs)
    simp [List.takeWhile_cons, hc, ih (fun d hd => h d (List.mem_cons_of_mem _ hd)) v]

theorem dropWhile_append_all {p : Char → Bool} :
    ∀ {u : List Char}, (∀ c ∈ u, p c = true) →
      ∀ (v : List Char), (u ++ v).dropWhile p = v.dropWhile p := by
  intro u
  induction u with
  | nil => intro _ v; rfl
  | cons c cs ih =>
    intro h v
    have hc : p c = true := h c (List.mem_cons_self c cs)
    simp [List.dropWhile_cons, hc, ih (fun d hd => h d (List.mem_cons_of_mem _ hd)) v]

/-! ## Claim C2: thousands and decimal separators in format_currency.
The spec says a value with both a comma and a period is read with the period
as thousands separator and the comma as decimal mark; the code does the
opposite (its own docstring says so): commas are removed as thousands
separators and the period is the decimal mark. -/

theorem pyFloatCore_decimal (u f : List Char) (hne : u ≠ [])
    (hu : ∀ c ∈ u, c.isDigit = true) (hf : ∀ c ∈ f, c.isDigit = true) :
    pyFloatCore (u ++ '.' :: f) =
      some ((digitsVal u : ℚ) + (digitsVal f : ℚ) / 10 ^ f.length) := by
  simp only [pyFloatCore]
  rw [takeWhile_append_all hu, dropWhile_append_all hu]
  have e2 : ('.' :: f).takeWhile Char.isDigit = [] := by
    simp [List.takeWhile_cons]
  have e3 : ('.' :: f).dropWhile Char.isDigit = '.' :: f := by
    simp [List.dropWhile_cons]
  rw [e2, e3, List.append_nil]
  simp only [if_pos rfl]
  have e4 : f.all Char.isDigit = true := List.all_eq_true.mpr hf
  have e5 : u.isEmpty = false := by
    cases u with
    | nil => exact absurd rfl hne
    | cons c cs => rfl
  rw [e4, e5]
  simp

theorem pyFloat_decimal (u f : List Char) (hne : u ≠ [])
    (hu : ∀ c ∈ u, c.isDigit = true) (hf : ∀ c ∈ f, c.isDigit = true) :
    pyFloat (u ++ '.' :: f) =
      some ((digitsVal u : ℚ) + (digitsVal f : ℚ) / 10 ^ f.length) := by
  obtain ⟨c0, u', rfl⟩ : ∃ c0 u', u = c0 :: u' := by
    cases u with
    | nil => exact absurd rfl hne
    | cons c0 u' => exact ⟨c0, u', rfl⟩
  have hc0 : c0.isDigit = true := hu c0 (List.mem_cons_self c0 u')
  have hc0m : c0 ≠ '-' := isDigit_ne hc0 (by decide)
  have hc0p : c0 ≠ '+' := isDigit_ne hc0 (by decide)
  have e0 : (c0 :: u') ++ '.' :: f = c0 :: (u' ++ '.' :: f) := rfl
  rw [e0]
  show (if c0 = '-' then (pyFloatCore (u' ++ '.' :: f)).map (fun q => -q)
      else if c0 = '+' then pyFloatCore (u' ++ '.' :: f)
      else pyFloatCore (c0 :: (u' ++ '.' :: f))) = _
  rw [if_neg hc0m, if_neg hc0p, ← e0]
  exact pyFloatCore_decimal (c0 :: u') f hne hu hf

/-- Claim C2, counterexample: on an input with both separators the claimed
comma-decimal reading would give 1234.56, but format_currency removes the
comma and reads the period as the decimal mark, giving 1.23456. -/
theorem format_currency_period_not_thousands_counterexample :
    format_currency "1.234,56" = 123456 / 100000 ∧
      format_currency "1.234,56" ≠ 1234 + 56 / 100 := by
  have h : format_currency "1.234,56" =
      (digitsVal ['1'] : ℚ) + (digitsVal ['2', '3', '4', '5', '6'] : ℚ) / 10 ^ 5 := by
    have e : ("1.234,56" : String).toList = ['1', '.', '2', '3', '4', ',', '5', '6'] := rfl
    show (pyFloat ((pyStrip (("1.234,56" : String).toList.filter
        (fun c => decide (c ≠ '$')))).filter (fun c => decide (c ≠ ',')))).getD 0 = _
    rw [e]
    rw [show (['1', '.', '2', '3', '4', ',', '5', '6'].filter
        (fun c => decide (c ≠ '$'))) = ['1', '.', '2', '3', '4', ',', '5', '6'] from by decide]
    rw [show pyStrip ['1', '.', '2', '3', '4', ',', '5', '6'] =
        ['1', '.', '2', '3', '4', ',', '5', '6'] from by decide]
    rw [show (['1', '.', '2', '3', '4', ',', '5', '6'].filter
        (fun c => decide (c ≠ ','))) = ['1'] ++ '.' :: ['2', '3', '4', '5', '6'] from by decide]
    rw [pyFloat_decimal ['1'] ['2', '3', '4', '5', '6'] (by decide) (by decide) (by decide)]
    rfl
  rw [h, show digitsVal ['1'] = 1 from by decide,
    show digitsVal ['2', '3', '4', '5', '6'] = 23456 from by decide]
  norm_num

/-- Claim C2 as amended: for a value written with comma thousands groups and
a period decimal point, format_currency removes the comma and parses the rest
with the period as the decimal mark. -/
theorem format_currency_comma_thousands_period_decimal
    (a b f : List Char) (ha : a ≠ []) (haD : ∀ c ∈ a, c.isDigit = true)
    (hbD : ∀ c ∈ b, c.isDigit = true) (hfD : ∀ c ∈ f, c.isDigit = true) :
    format_currency (String.mk (a ++ ',' :: (b ++ '.' :: f))) =
      (digitsVal (a ++ b) : ℚ) + (digitsVal f : ℚ) / 10 ^ f.length := by
  have hall : ∀ c ∈ a ++ ',' :: (b ++ '.' :: f), c = ',' ∨ c = '.' ∨ c.isDigit = true := by
    intro c hc
    rcases List.mem_append.mp hc with h | h
    · exact Or.inr (Or.inr (haD c h))
    · rcases List.mem_cons.mp h with h | h
      · exact Or.inl h
      · rcases List.mem_append.mp h with h | h
        · exact Or.inr (Or.inr (hbD c h))
        · rcases List.mem_cons.mp h with h | h
          · exact Or.inr (Or.inl h)
          · exact Or.inr (Or.inr (hfD c h))
  show (pyFloat (((a ++ ',' :: (b ++ '.' :: f)).filter (fun c => decide (c ≠ '$')) |> pyStrip).filter
      (fun c => decide (c ≠ ',')))).getD 0 = _
  have hfil : (a ++ ',' :: (b ++ '.' :: f)).filter (fun c => decide (c ≠ '$')) =
      a ++ ',' :: (b ++ '.' :: f) := by
    rw [List.filter_eq_self]
    intro c hc
    rcases hall c hc with h | h | h
    · subst h; decide
    · subst h; decide
    · simp only [decide_eq_true_eq]; exact isDigit_ne h (by decide)
  rw [hfil]
  have hstrip : pyStrip (a ++ ',' :: (b ++ '.' :: f)) = a ++ ',' :: (b ++ '.' :: f) := by
    apply pyStrip_eq_self
    intro c hc
    rcases hall c hc with h | h | h
    · subst h; decide
    · subst h; decide
    · exact not_ws_of_digit h
  rw [hstrip]
  have hself : ∀ (u : List Char), (∀ c ∈ u, c.isDigit = true) →
      u.filter (fun c => decide (c ≠ ',')) = u := by
    intro u hu
    rw [List.filter_eq_self]
    intro c hc
    simp only [decide_eq_true_eq]
    exact isDigit_ne (hu c hc) (by decide)
  have hcom : (a ++ ',' :: (b ++ '.' :: f)).filter (fun c => decide (c ≠ ',')) =
      ((a ++ b) ++ '.' :: f) := by
    rw [List.filter_append, List.filter_cons]
    rw [if_neg (by decide : ¬(decide ((',' : Char) ≠ ',') = true))]
    rw [List.filter_append, List.filter_cons]
    rw [if_pos (by decide : decide (('.' : Char) ≠ ',') = true)]
    rw [hself a haD, hself b hbD, hself f hfD, List.append_assoc]
  rw [hcom]
  have hdig : ∀ c ∈ a ++ b, c.isDigit = true := by
    intro c hc
    rcases List.mem_append.mp hc with h | h
    · exact haD c h
    · exact hbD c h
  have hne : a ++ b ≠ [] := by
    intro hnil
    exact ha (List.append_eq_nil.mp hnil).1
  rw [pyFloat_decimal (a ++ b) f hne hdig hfD]
  rfl

/-- Claim C2 amended, witness at a concrete input. -/
theorem format_currency_comma_thousands_period_decimal_witness :
    format_currency "1,234.56" = 1234 + 56 / 100 := by
  have h := format_currency_comma_thousands_period_decimal ['1'] ['2', '3', '4']
    ['5', '6'] (by decide) (by decide) (by decide) (by decide)
  have e1 : String.mk (['1'] ++ ',' :: (['2', '3', '4'] ++ '.' :: ['5', '6'])) =
      "1,234.56" := rfl
  rw [e1] at h
  rw [h]
  have e2 : digitsVal (['1'] ++ ['2', '3', '4']) = 1234 := by decide
  have e3 : digitsVal ['5', '6'] = 56 := by decide
  rw [e2, e3]
  norm_num

/-! ## Claim C3: rounding of parsed amounts.
format_currency itself does not round; the two-decimal rounding is applied by
dataframe_to_transactions when the stored amount is materialized. -/

/-- Claim C3, counterexample: format_currency returns 0.125 unrounded, which
differs from its own two-decimal rounding, so the parser's result is not
always rounded to 2 decimal digits. -/
theorem ratFloor_eq_intFloor (q : ℚ) : Rat.floor q = ⌊q⌋ :=
  (Rat.floor_def' q).trans Rat.floor_def.symm

theorem format_currency_unrounded_counterexample :
    format_currency "0.125" = 1 / 8 ∧
      round2 (format_currency "0.125") ≠ format_currency "0.125" := by
  have h : format_currency "0.125" =
      (digitsVal ['0'] : ℚ) + (digitsVal ['1', '2', '5'] : ℚ) / 10 ^ 3 := by
    have e : ("0.125" : String).toList = ['0', '.', '1', '2', '5'] := rfl
    show (pyFloat ((pyStrip (("0.125" : String).toList.filter
        (fun c => decide (c ≠ '$')))).filter (fun c => decide (c ≠ ',')))).getD 0 = _
    rw [e]
    rw [show (['0', '.', '1', '2', '5'].filter (fun c => decide (c ≠ '$'))) =
        ['0', '.', '1', '2', '5'] from by decide]
    rw [show pyStrip ['0', '.', '1', '2', '5'] = ['0', '.', '1', '2', '5'] from by decide]
    rw [show (['0', '.', '1', '2', '5'].filter (fun c => decide (c ≠ ','))) =
        ['0'] ++ '.' :: ['1', '2', '5'] from by decide]
    rw [pyFloat_decimal ['0'] ['1', '2', '5'] (by decide) (by decide) (by decide)]
    rfl
  have h18 : format_currency "0.125" = 1 / 8 := by
    rw [h, show digitsVal ['0'] = 0 from by decide,
      show digitsVal ['1', '2', '5'] = 125 from by decide]
    norm_num
  refine ⟨h18, ?_⟩
  rw [h18]
  have hq : (1 : ℚ) / 8 * 100 = 25 / 2 := by norm_num
  have hfl : Rat.floor ((1 : ℚ) / 8 * 100) = 12 := by
    rw [ratFloor_eq_intFloor, hq, Int.floor_eq_iff]
    constructor <;> norm_num
  show ((roundHalfEven ((1 : ℚ) / 8 * 100) : ℤ) : ℚ) / 100 ≠ 1 / 8
  simp only [roundHalfEven]
  rw [hfl, hq]
  rw [if_neg (by norm_num : ¬((25 : ℚ) / 2 - (12 : ℤ) < 1 / 2))]
  rw [if_neg (by norm_num : ¬((1 : ℚ) / 2 < (25 : ℚ) / 2 - (12 : ℤ)))]
  rw [if_pos (by decide : (12 : ℤ) % 2 = 0)]
  norm_num

theorem roundHalfEven_intCast (n : ℤ) : roundHalfEven (n : ℚ) = n := by
  simp only [roundHalfEven]
  rw [ratFloor_eq_intFloor, Int.floor_intCast, sub_self]
  rw [if_pos (by norm_num : (0 : ℚ) < 1 / 2)]

theorem round2_round2 (q : ℚ) : round2 (round2 q) = round2 q := by
  unfold round2
  rw [div_mul_cancel₀ _ (by norm_num : (100 : ℚ) ≠ 0), roundHalfEven_intCast]

/-- Claim C3 as amended: the stored transaction amounts built by
dataframe_to_transactions (round of movimiento for the bank side, round of
debito - credito for the accounting side) are fixed points of two-decimal
rounding, so every amount handed to a comparison is already rounded. -/
theorem ingested_amounts_round2_fixed (m d c : ℚ) :
    round2 (bankAmount m) = bankAmount m ∧
      round2 (accountingAmount d c) = accountingAmount d c :=
  ⟨round2_round2 m, round2_round2 (d - c)⟩

/-! ## Claim C4: matched pairs have equal rounded amounts. -/

theorem mem_reconcileData {L S : List Tx} {x y : Tx}
    (h : (x, y) ∈ reconcileData L S) :
    ∃ k, (x, k) ∈ withOrd L ∧ (y, k) ∈ withOrd S ∧ y.amount = x.amount := by
  unfold reconcileData at h
  rw [List.mem_filterMap] at h
  obtain ⟨e, heL, heq⟩ := h
  cases hf : (withOrd S).find? (keyHit e.1.amount e.2) with
  | none => rw [hf] at heq; exact absurd heq (by simp)
  | some e2 =>
    rw [hf] at heq
    simp only [Option.map_some', Option.some.injEq] at heq
    have hx : e.1 = x := congrArg Prod.fst heq
    have hy : e2.1 = y := congrArg Prod.snd heq
    have hp := List.find?_some hf
    have hm := List.mem_of_find?_eq_some hf
    unfold keyHit at hp
    rw [Bool.and_eq_true, decide_eq_true_eq, decide_eq_true_eq] at hp
    refine ⟨e.2, ?_, ?_, ?_⟩
    · have he : ((x, e.2) : Tx × ℕ) = e := by rw [← hx]
      rw [he]
      exact heL
    · have he2 : ((y, e.2) : Tx × ℕ) = e2 := by rw [← hy, ← hp.2]
      rw [he2]
      exact hm
    · rw [← hx, ← hy]
      exact hp.1

/-- Claim C4: every row reconciled by the automatic matcher relates a ledger
record and a statement record whose amounts agree after rounding to two
decimal digits (the merge key is the exact amount, so the rounded amounts
agree as well). -/
theorem auto_match_amounts_round2_equal (L S : List Tx) (x y : Tx)
    (h : (x, y) ∈ reconcileData L S) : round2 x.amount = round2 y.amount := by
  obtain ⟨k, _, _, hamt⟩ := mem_reconcileData h
  rw [hamt]

/-- Claim C4, witness at a concrete matched pair. -/
theorem auto_match_amounts_round2_equal_witness :
    round2 (Tx.mk 1 0 5).amount = round2 (Tx.mk 2 0 5).amount :=
  auto_match_amounts_round2_equal [Tx.mk 1 0 5] [Tx.mk 2 0 5] _ _ (by decide)

/-! ## Claim C6: validation failures leave the store unchanged. -/

/-- Claim C6: whenever a manual grouping request (1:1, one-bank-to-many, or
many-bank-to-one) fails validation, the returned state is exactly the input
state: no pair of the request is committed, because every db append happens
only after the whole validation phase has succeeded. -/
theorem manual_error_leaves_state_unchanged :
    (∀ (st : DB) (b a : ℕ) (e : ApiErr),
        (reconcileManual st b a).2 = .error e → (reconcileManual st b a).1 = st) ∧
    (∀ (st : DB) (b : ℕ) (ids : List ℕ) (e : ApiErr),
        (manyToOne st b ids).2 = .error e → (manyToOne st b ids).1 = st) ∧
    (∀ (st : DB) (a : ℕ) (ids : List ℕ) (e : ApiErr),
        (oneToMany st a ids).2 = .error e → (oneToMany st a ids).1 = st) := by
  refine ⟨?_, ?_, ?_⟩
  · intro st b a e h
    unfold reconcileManual at h ⊢
    cases hE : reconcileManualE st b a with
    | error e2 => rfl
    | ok p => rw [hE] at h; simp at h
  · intro st b ids e h
    unfold manyToOne at h ⊢
    cases hE : manyToOneE st b ids with
    | error e2 => rfl
    | ok r => rw [hE] at h; simp at h
  · intro st a ids e h
    unfold oneToMany at h ⊢
    cases hE : oneToManyE st a ids with
    | error e2 => rfl
    | ok r => rw [hE] at h; simp at h

/-- Claim C6, witness: a failing request of each shape leaves the concrete
empty store untouched. -/
theorem manual_error_leaves_state_unchanged_witness :
    (reconcileManual (DB.mk [] [] []) 1 2).1 = DB.mk [] [] [] ∧
      (manyToOne (DB.mk [] [] []) 1 [2]).1 = DB.mk [] [] [] ∧
      (oneToMany (DB.mk [] [] []) 1 [2]).1 = DB.mk [] [] [] :=
  ⟨manual_error_leaves_state_unchanged.1 (DB.mk [] [] []) 1 2
      (.recordNotFound 1) (by decide),
    manual_error_leaves_state_unchanged.2.1 (DB.mk [] [] []) 1 [2]
      (.recordNotFound 1) (by decide),
    manual_error_leaves_state_unchanged.2.2 (DB.mk [] [] []) 1 [2]
      (.recordNotFound 1) (by decide)⟩

/-! ## Claim C7: order of the validation checks.
The 1:1 endpoint checks already-reconciled before existence; the two group
endpoints validate the single-side id first and then walk the listed ids one
at a time, checking existence before membership for each id, so the checks
are interleaved across ids rather than existence-first for the whole
request. -/

/-- Claim C7, counterexample: in the 1:1 endpoint a request whose bank id is
already reconciled and whose accounting id is unknown fails with
AlreadyReconciled, not with the RecordNotFound the claim requires. -/
theorem manual_validation_order_counterexample :
    (reconcileManual (DB.mk [Tx.mk 1 0 5] [Tx.mk 2 0 5] [Pair.mk 1 2]) 1 99).2 =
        .error (.alreadyReconciled 1) ∧
      (reconcileManual (DB.mk [Tx.mk 1 0 5] [Tx.mk 2 0 5] [Pair.mk 1 2]) 1 99).2 ≠
        .error (.recordNotFound 99) := by
  constructor <;> decide

/-- Claim C7 as amended: the 1:1 endpoint checks already-reconciled first, so
an already-reconciled bank id fails with AlreadyReconciled regardless of the
other id; the group endpoints check each listed id's existence before its
membership (an unknown first id fails RecordNotFound even if it appears in a
pair), but walk the listed ids in order, so an earlier already-reconciled id
masks a later unknown one. -/
theorem manual_validation_order_amended :
    (∀ (st : DB) (b a : ℕ), pairsHasBank st.pairs b = true →
        (reconcileManual st b a).2 = .error (.alreadyReconciled b)) ∧
    (∀ (st : DB) (b : ℕ) (t : Tx) (a : ℕ) (rest : List ℕ),
        findTxIn st.bank b = some t → pairsHasBank st.pairs b = false →
        findTxIn st.accounting a = none →
        (manyToOne st b (a :: rest)).2 = .error (.recordNotFound a)) ∧
    (∀ (st : DB) (b : ℕ) (t : Tx) (a1 : ℕ) (t1 : Tx) (a2 : ℕ) (rest : List ℕ),
        findTxIn st.bank b = some t → pairsHasBank st.pairs b = false →
        findTxIn st.accounting a1 = some t1 → pairsHasAcc st.pairs a1 = true →
        (manyToOne st b (a1 :: a2 :: rest)).2 = .error (.alreadyReconciled a1)) ∧
    (∀ (st : DB) (a : ℕ) (t : Tx) (b : ℕ) (rest : List ℕ),
        findTxIn st.accounting a = some t → pairsHasAcc st.pairs a = false →
        findTxIn st.bank b = none →
        (oneToMany st a (b :: rest)).2 = .error (.recordNotFound b)) := by
  refine ⟨?_, ?_, ?_, ?_⟩
  · intro st b a h
    unfold reconcileManual reconcileManualE
    rw [if_pos h]
  · intro st b t a rest h1 h2 h3
    unfold manyToOne manyToOneE validateAccIds
    rw [h1, h2]
    simp only [List.isEmpty_cons, Bool.false_eq_true, if_false, if_neg (by decide : ¬False),
      List.not_mem_nil]
    rw [h3]
  · intro st b t a1 t1 a2 rest h1 h2 h3 h4
    unfold manyToOne manyToOneE validateAccIds
    rw [h1, h2]
    simp only [List.isEmpty_cons, Bool.false_eq_true, if_false, List.not_mem_nil]
    rw [h3, h4]
    rfl
  · intro st a t b rest h1 h2 h3
    unfold oneToMany oneToManyE validateBankIds
    rw [h1, h2]
    simp only [List.isEmpty_cons, Bool.false_eq_true, if_false, List.not_mem_nil]
    rw [h3]

/-- Claim C7 amended, witness at concrete stores. -/
theorem manual_validation_order_amended_witness :
    (reconcileManual (DB.mk [Tx.mk 1 0 5] [Tx.mk 2 0 5] [Pair.mk 1 2]) 1 7).2 =
        .error (.alreadyReconciled 1) ∧
      (manyToOne (DB.mk [Tx.mk 1 0 5] [] []) 1 [7]).2 =
        .error (.recordNotFound 7) ∧
      (manyToOne (DB.mk [Tx.mk 1 0 5] [Tx.mk 2 0 5] [Pair.mk 9 2]) 1 [2, 3]).2 =
        .error (.alreadyReconciled 2) ∧
      (oneToMany (DB.mk [] [Tx.mk 2 0 5] []) 2 [7]).2 =
        .error (.recordNotFound 7) :=
  ⟨manual_validation_order_amended.1 _ 1 7 (by decide),
    manual_validation_order_amended.2.1 _ 1 (Tx.mk 1 0 5) 7 [] (by decide) (by decide)
      (by decide),
    manual_validation_order_amended.2.2.1 _ 1 (Tx.mk 1 0 5) 2 (Tx.mk 2 0 5) 3 []
      (by decide) (by decide) (by decide) (by decide),
    manual_validation_order_amended.2.2.2 _ 2 (Tx.mk 2 0 5) 7 [] (by decide) (by decide)
      (by decide)⟩

/-! ## Claim C8: uploading a file replaces the side and clears the pairs. -/

/-- Claim C8: for every prior state, committing an ingested file replaces the
uploaded side's collection wholesale with the new records, leaves the other
side untouched, and clears the whole list of committed pairs. -/
theorem upload_replaces_side_and_clears_pairs (st : DB) (txs : List Tx) :
    ((uploadCommit st .bank txs).pairs = [] ∧ (uploadCommit st .bank txs).bank = txs ∧
        (uploadCommit st .bank txs).accounting = st.accounting) ∧
      ((uploadCommit st .accounting txs).pairs = [] ∧
        (uploadCommit st .accounting txs).accounting = txs ∧
        (uploadCommit st .accounting txs).bank = st.bank) :=
  ⟨⟨rfl, rfl, rfl⟩, ⟨rfl, rfl, rfl⟩⟩

/-! ## The (amount, date) sort and the cumcount ordinal -/

instance : IsTotal Tx keyLe :=
  ⟨fun x y => by
    unfold keyLe
    rcases lt_trichotomy x.amount y.amount with h | h | h
    · exact Or.inl (Or.inl h)
    · rcases le_total x.date y.date with hd | hd
      · exact Or.inl (Or.inr ⟨h, hd⟩)
      · exact Or.inr (Or.inr ⟨h.symm, hd⟩)
    · exact Or.inr (Or.inl h)⟩

instance : IsTrans Tx keyLe :=
  ⟨fun x y z hxy hyz => by
    unfold keyLe at *
    rcases hxy with h1 | ⟨h1, d1⟩ <;> rcases hyz with h2 | ⟨h2, d2⟩
    · exact Or.inl (h1.trans h2)
    · exact Or.inl (h2 ▸ h1)
    · exact Or.inl (h1 ▸ h2)
    · exact Or.inr ⟨h1.trans h2, d1.trans d2⟩⟩

theorem sortTx_perm (l : List Tx) : List.Perm (sortTx l) l :=
  List.perm_insertionSort keyLe l

theorem sortTx_sorted (l : List Tx) : List.Sorted keyLe (sortTx l) :=
  List.sorted_insertionSort keyLe l

theorem ccAux_map_fst : ∀ (l prev : List Tx), (ccAux prev l).map Prod.fst = l := by
  intro l
  induction l with
  | nil => intro prev; rfl
  | cons x xs ih => intro prev; simp [ccAux, ih]

theorem mem_of_mem_withOrd {l : List Tx} {x : Tx} {k : ℕ}
    (h : (x, k) ∈ withOrd l) : x ∈ l := by
  have : x ∈ (ccAux [] (sortTx l)).map Prod.fst :=
    List.mem_map_of_mem Prod.fst h
  rw [ccAux_map_fst] at this
  exact (sortTx_perm l).mem_iff.mp this

theorem exists_ord_of_mem {l : List Tx} {x : Tx} (h : x ∈ l) :
    ∃ k, (x, k) ∈ withOrd l := by
  have hx : x ∈ (ccAux [] (sortTx l)).map Prod.fst := by
    rw [ccAux_map_fst]
    exact (sortTx_perm l).mem_iff.mpr h
  obtain ⟨e, he, hfst⟩ := List.mem_map.mp hx
  refine ⟨e.2, ?_⟩
  have hmk : ((x, e.2) : Tx × ℕ) = e := by rw [← hfst]
  rw [hmk]
  exact he

theorem ccAux_range (a : ℚ) (l : List Tx) : ∀ (prev : List Tx) (k : ℕ),
    (∃ x, (x, k) ∈ ccAux prev l ∧ x.amount = a) ↔
      (prev.countP (sameAmt a) ≤ k ∧ k < prev.countP (sameAmt a) + l.countP (sameAmt a)) := by
  induction l with
  | nil =>
    intro prev k
    simp only [ccAux, List.not_mem_nil, false_and, exists_false, List.countP_nil,
      Nat.add_zero, false_iff, not_and, not_lt]
    intro h
    exact h
  | cons x xs ih =>
    intro prev k
    have hstep : ccAux prev (x :: xs) =
        (x, prev.countP (sameAmt x.amount)) :: ccAux (prev ++ [x]) xs := rfl
    rw [hstep]
    have hxs := ih (prev ++ [x]) k
    rw [List.countP_append] at hxs
    by_cases hx : x.amount = a
    · have hpc : prev.countP (sameAmt x.amount) = prev.countP (sameAmt a) := by rw [hx]
      have hone : List.countP (sameAmt a) [x] = 1 := by
        simp [List.countP_cons, sameAmt, hx]
      rw [hone] at hxs
      have hcnt : (x :: xs).countP (sameAmt a) = xs.countP (sameAmt a) + 1 := by
        simp [List.countP_cons, sameAmt, hx]
      rw [hcnt]
      constructor
      · rintro ⟨y, hy, hya⟩
        rcases List.mem_cons.mp hy with h | h
        · have h1 := (Prod.mk.injEq _ _ _ _).mp h
          have hk : k = prev.countP (sameAmt a) := by rw [h1.2, hpc]
          omega
        · have := hxs.mp ⟨y, h, hya⟩
          omega
      · rintro ⟨h1, h2⟩
        by_cases hk : k = prev.countP (sameAmt a)
        · refine ⟨x, ?_, hx⟩
          rw [hk, ← hpc]
          exact List.mem_cons_self _ _
        · obtain ⟨y, hy, hya⟩ := hxs.mpr (by omega)
          exact ⟨y, List.mem_cons_of_mem _ hy, hya⟩
    · have hzero : List.countP (sameAmt a) [x] = 0 := by
        simp [List.countP_cons, sameAmt, hx]
      rw [hzero] at hxs
      have hcnt : (x :: xs).countP (sameAmt a) = xs.countP (sameAmt a) := by
        simp [List.countP_cons, sameAmt, hx]
      rw [hcnt]
      constructor
      · rintro ⟨y, hy, hya⟩
        rcases List.mem_cons.mp hy with h | h
        · have h1 : y = x := (Prod.mk.injEq _ _ _ _).mp h |>.1
          exact absurd (h1 ▸ hya) hx
        · have := hxs.mp ⟨y, h, hya⟩
          omega
      · rintro ⟨h1, h2⟩
        obtain ⟨y, hy, hya⟩ := hxs.mpr (by omega)
        exact ⟨y, List.mem_cons_of_mem _ hy, hya⟩

theorem ccAux_amount_ord_inj (l : List Tx) : ∀ (prev : List Tx) (k : ℕ) (x y : Tx),
    (x, k) ∈ ccAux prev l → (y, k) ∈ ccAux prev l → x.amount = y.amount → x = y := by
  induction l with
  | nil => intro prev k x y hx; simp [ccAux] at hx
  | cons z zs ih =>
    intro prev k x y hx hy hamt
    have hstep : ccAux prev (z :: zs) =
        (z, prev.countP (sameAmt z.amount)) :: ccAux (prev ++ [z]) zs := rfl
    rw [hstep] at hx hy
    rcases List.mem_cons.mp hx with h1 | h1 <;> rcases List.mem_cons.mp hy with h2 | h2
    · have e1 := (Prod.mk.injEq _ _ _ _).mp h1
      have e2 := (Prod.mk.injEq _ _ _ _).mp h2
      rw [e1.1, e2.1]
    · have e1 := (Prod.mk.injEq _ _ _ _).mp h1
      have hbound := (ccAux_range y.amount zs (prev ++ [z]) k).mp ⟨y, h2, rfl⟩
      rw [List.countP_append] at hbound
      have hyz : y.amount = z.amount := by rw [← hamt, ← e1.1]
      have hone : List.countP (sameAmt y.amount) [z] = 1 := by
        simp [List.countP_cons, sameAmt, hyz.symm]
      have hpz : prev.countP (sameAmt y.amount) = prev.countP (sameAmt z.amount) := by
        rw [hyz]
      rw [hone, hpz] at hbound
      have hk := e1.2
      exfalso
      omega
    · have e2 := (Prod.mk.injEq _ _ _ _).mp h2
      have hbound := (ccAux_range x.amount zs (prev ++ [z]) k).mp ⟨x, h1, rfl⟩
      rw [List.countP_append] at hbound
      have hxz : x.amount = z.amount := by rw [hamt, ← e2.1]
      have hone : List.countP (sameAmt x.amount) [z] = 1 := by
        simp [List.countP_cons, sameAmt, hxz.symm]
      have hpz : prev.countP (sameAmt x.amount) = prev.countP (sameAmt z.amount) := by
        rw [hxz]
      rw [hone, hpz] at hbound
      have hk := e2.2
      exfalso
      omega
    · exact ih (prev ++ [z]) k x y h1 h2 hamt

theorem ccAux_nodup_ord_inj (l : List Tx) : ∀ (prev : List Tx), l.Nodup →
    ∀ (x : Tx) (k k' : ℕ), (x, k) ∈ ccAux prev l → (x, k') ∈ ccAux prev l → k = k' := by
  induction l with
  | nil => intro prev _ x k k' hk; simp [ccAux] at hk
  | cons z zs ih =>
    intro prev hnd x k k' hk hk'
    have hstep : ccAux prev (z :: zs) =
        (z, prev.countP (sameAmt z.amount)) :: ccAux (prev ++ [z]) zs := rfl
    rw [hstep] at hk hk'
    have hzs : z ∉ zs := (List.nodup_cons.mp hnd).1
    rcases List.mem_cons.mp hk with h1 | h1 <;> rcases List.mem_cons.mp hk' with h2 | h2
    · have e1 := (Prod.mk.injEq _ _ _ _).mp h1
      have e2 := (Prod.mk.injEq _ _ _ _).mp h2
      rw [e1.2, e2.2]
    · have e1 := (Prod.mk.injEq _ _ _ _).mp h1
      have : x ∈ (ccAux (prev ++ [z]) zs).map Prod.fst := List.mem_map_of_mem Prod.fst h2
      rw [ccAux_map_fst] at this
      exact absurd (e1.1 ▸ this) hzs
    · have e2 := (Prod.mk.injEq _ _ _ _).mp h2
      have : x ∈ (ccAux (prev ++ [z]) zs).map Prod.fst := List.mem_map_of_mem Prod.fst h1
      rw [ccAux_map_fst] at this
      exact absurd (e2.1 ▸ this) hzs
    · exact ih (prev ++ [z]) (List.nodup_cons.mp hnd).2 x k k' h1 h2

theorem ccAux_split : ∀ (u prev : List Tx) (x : Tx) (v : List Tx),
    (x, (prev ++ u).countP (sameAmt x.amount)) ∈ ccAux prev (u ++ x :: v) := by
  intro u
  induction u with
  | nil =>
    intro prev x v
    rw [List.append_nil]
    exact List.mem_cons_self _ _
  | cons z u' ih =>
    intro prev x v
    have hstep : ccAux prev ((z :: u') ++ x :: v) =
        (z, prev.countP (sameAmt z.amount)) :: ccAux (prev ++ [z]) (u' ++ x :: v) := rfl
    rw [hstep]
    have h := ih (prev ++ [z]) x v
    have e : (prev ++ [z]) ++ u' = prev ++ z :: u' := by
      rw [List.append_assoc]
      rfl
    rw [e] at h
    exact List.mem_cons_of_mem _ h

/-- Under distinct (amount, date) keys, the cumcount ordinal of a record is
exactly the spec's ordinal: the number of same-amount records with a strictly
earlier date. -/
theorem withOrd_spec (l : List Tx) (hl : keysNodup l) (x : Tx) (hx : x ∈ l) :
    (x, specOrd l x) ∈ withOrd l := by
  have hperm := sortTx_perm l
  have hs := sortTx_sorted l
  have hxs : x ∈ sortTx l := hperm.mem_iff.mpr hx
  obtain ⟨u, v, huv⟩ := List.append_of_mem hxs
  have hmem := ccAux_split u [] x v
  rw [List.nil_append, ← huv] at hmem
  have hkeys : ((sortTx l).map keyOf).Nodup := ((hperm.map keyOf).nodup_iff).mpr hl
  rw [huv] at hkeys hs
  rw [List.map_append, List.map_cons] at hkeys
  obtain ⟨hknd1, hknd2, hkdisj⟩ := List.nodup_append.mp hkeys
  have hxnotu : keyOf x ∉ u.map keyOf := by
    intro hmemu
    exact hkdisj hmemu (List.mem_cons_self _ _)
  have hxnotv : keyOf x ∉ v.map keyOf := (List.nodup_cons.mp hknd2).1
  have hpw : List.Pairwise keyLe (u ++ x :: v) := hs
  rw [List.pairwise_append] at hpw
  obtain ⟨_, hpv, hrel⟩ := hpw
  have hvle : ∀ y ∈ v, keyLe x y := (List.pairwise_cons.mp hpv).1
  have hule : ∀ y ∈ u, keyLe y x := fun y hy => hrel y hy x (List.mem_cons_self _ _)
  have hcount : u.countP (sameAmt x.amount) = specOrd l x := by
    have h1 : specOrd l x =
        (sortTx l).countP (fun y => decide (y.amount = x.amount) && decide (y.date < x.date)) :=
      ((sortTx_perm l).countP_eq _).symm
    rw [h1, huv, List.countP_append, List.countP_cons]
    have hxterm : (decide (x.amount = x.amount) && decide (x.date < x.date)) = false := by
      simp
    rw [hxterm]
    have hvzero : v.countP (fun y => decide (y.amount = x.amount) && decide (y.date < x.date)) = 0 := by
      rw [List.countP_eq_zero]
      intro y hy
      simp only [Bool.and_eq_true, decide_eq_true_eq, not_and]
      intro hya hyd
      rcases hvle y hy with h | ⟨h, hd⟩
      · exact absurd (hya ▸ h) (lt_irrefl _)
      · have hne : x.date ≠ y.date := by
          intro he
          exact hxnotv (List.mem_map.mpr ⟨y, hy, by unfold keyOf; rw [hya, he]⟩)
        omega
    rw [hvzero]
    have hucount : u.countP (fun y => decide (y.amount = x.amount) && decide (y.date < x.date)) =
        u.countP (sameAmt x.amount) := by
      apply List.countP_congr
      intro y hy
      simp only [Bool.and_eq_true, decide_eq_true_eq, sameAmt]
      constructor
      · rintro ⟨h, _⟩; exact h
      · intro hya
        refine ⟨hya, ?_⟩
        rcases hule y hy with h | ⟨h, hd⟩
        · exact absurd (hya ▸ h) (lt_irrefl _)
        · have hne : y.date ≠ x.date := by
            intro he
            exact hxnotu (List.mem_map.mpr ⟨y, hy, by unfold keyOf; rw [hya, he]⟩)
          omega
    rw [hucount]
    simp
  rw [← hcount]
  exact hmem

theorem keysNodup_nodup {l : List Tx} (hl : keysNodup l) : l.Nodup :=
  List.Nodup.of_map keyOf hl

theorem withOrd_mem_iff (l : List Tx) (hl : keysNodup l) (x : Tx) (k : ℕ) :
    (x, k) ∈ withOrd l ↔ x ∈ l ∧ k = specOrd l x := by
  constructor
  · intro h
    have hx : x ∈ l := mem_of_mem_withOrd h
    have h2 := withOrd_spec l hl x hx
    have hnd : (sortTx l).Nodup := (sortTx_perm l).nodup_iff.mpr (keysNodup_nodup hl)
    exact ⟨hx, ccAux_nodup_ord_inj (sortTx l) [] hnd x k (specOrd l x) h h2⟩
  · rintro ⟨hx, rfl⟩
    exact withOrd_spec l hl x hx

theorem find?_keyHit_eq {S : List Tx} {y : Tx} {k : ℕ} {a : ℚ}
    (hy : (y, k) ∈ withOrd S) (hya : y.amount = a) :
    (withOrd S).find? (keyHit a k) = some (y, k) := by
  have hsome : ((withOrd S).find? (keyHit a k)).isSome = true := by
    rw [List.find?_isSome]
    refine ⟨(y, k), hy, ?_⟩
    unfold keyHit
    simp [hya]
  obtain ⟨e2, he2⟩ := Option.isSome_iff_exists.mp hsome
  have hp := List.find?_some he2
  have hm := List.mem_of_find?_eq_some he2
  unfold keyHit at hp
  rw [Bool.and_eq_true, decide_eq_true_eq, decide_eq_true_eq] at hp
  have hmk : ((e2.1, k) : Tx × ℕ) = e2 := by rw [← hp.2]
  have heq : e2.1 = y := by
    apply ccAux_amount_ord_inj (sortTx S) [] k e2.1 y
    · rw [hmk]; exact hm
    · exact hy
    · rw [hp.1, hya]
  rw [he2, ← hmk, heq]

theorem pair_of_keys {L S : List Tx} {x y : Tx} {k : ℕ}
    (hx : (x, k) ∈ withOrd L) (hy : (y, k) ∈ withOrd S) (h : y.amount = x.amount) :
    (x, y) ∈ reconcileData L S := by
  unfold reconcileData
  rw [List.mem_filterMap]
  refine ⟨(x, k), hx, ?_⟩
  rw [find?_keyHit_eq hy h]
  rfl

/-! ## Claim C1: the automatic matcher pairs by (amount, ordinal). -/

/-- Claim C1: with each side's (amount, date) keys distinct (so that the
"k-th earliest-dated record of a given amount" is well defined), the
automatic matcher pairs a ledger record with a statement record exactly when
they have the same amount and the same per-amount date-rank ordinal; records
whose (amount, ordinal) key has no counterpart remain unpaired. -/
theorem auto_match_pairs_iff_amount_ordinal (L S : List Tx)
    (hL : keysNodup L) (hS : keysNodup S) (x y : Tx) :
    (x, y) ∈ reconcileData L S ↔
      x ∈ L ∧ y ∈ S ∧ x.amount = y.amount ∧ specOrd L x = specOrd S y := by
  constructor
  · intro h
    obtain ⟨k, hxL, hyS, hamt⟩ := mem_reconcileData h
    have h1 := (withOrd_mem_iff L hL x k).mp hxL
    have h2 := (withOrd_mem_iff S hS y k).mp hyS
    exact ⟨h1.1, h2.1, hamt.symm, by rw [← h1.2, ← h2.2]⟩
  · rintro ⟨hxL, hyS, hamt, hord⟩
    have hx : (x, specOrd L x) ∈ withOrd L := withOrd_spec L hL x hxL
    have hy : (y, specOrd L x) ∈ withOrd S := by
      rw [hord]
      exact withOrd_spec S hS y hyS
    exact pair_of_keys hx hy hamt.symm

/-- Claim C1, witness at concrete inputs with distinct keys. -/
theorem auto_match_pairs_iff_amount_ordinal_witness :
    (Tx.mk 1 1 100, Tx.mk 10 2 100) ∈
        reconcileData [Tx.mk 1 1 100, Tx.mk 2 5 100] [Tx.mk 10 2 100] ↔
      Tx.mk 1 1 100 ∈ [Tx.mk 1 1 100, Tx.mk 2 5 100] ∧
        Tx.mk 10 2 100 ∈ [Tx.mk 10 2 100] ∧
        (Tx.mk 1 1 100).amount = (Tx.mk 10 2 100).amount ∧
        specOrd [Tx.mk 1 1 100, Tx.mk 2 5 100] (Tx.mk 1 1 100) =
          specOrd [Tx.mk 10 2 100] (Tx.mk 10 2 100) :=
  auto_match_pairs_iff_amount_ordinal [Tx.mk 1 1 100, Tx.mk 2 5 100] [Tx.mk 10 2 100]
    (by decide) (by decide) (Tx.mk 1 1 100) (Tx.mk 10 2 100)

/-! ## Claim C10: no dangling pair ids in any reachable state. -/

theorem findTxIn_some {l : List Tx} {i : ℕ} {t : Tx} (h : findTxIn l i = some t) :
    t ∈ l ∧ t.id = i := by
  unfold findTxIn at h
  refine ⟨List.mem_of_find?_eq_some h, ?_⟩
  have := List.find?_some h
  simpa using this

theorem reconcileManualE_ok {st : DB} {b a : ℕ} {p : Pair}
    (h : reconcileManualE st b a = .ok p) :
    p = Pair.mk b a ∧ (∃ t ∈ st.bank, t.id = b) ∧ (∃ t ∈ st.accounting, t.id = a) := by
  unfold reconcileManualE at h
  by_cases h1 : pairsHasBank st.pairs b = true
  · rw [if_pos h1] at h; exact absurd h (by simp)
  rw [if_neg h1] at h
  by_cases h2 : pairsHasAcc st.pairs a = true
  · rw [if_pos h2] at h; exact absurd h (by simp)
  rw [if_neg h2] at h
  cases hb : findTxIn st.bank b with
  | none => rw [hb] at h; exact absurd h (by simp)
  | some tb =>
    rw [hb] at h
    have h2 : (match findTxIn st.accounting a with
        | none => (Except.error (ApiErr.recordNotFound a) : Except ApiErr Pair)
        | some _ => .ok (Pair.mk b a)) = .ok p := h
    cases ha : findTxIn st.accounting a with
    | none => rw [ha] at h2; exact absurd h2 (by simp)
    | some ta =>
      rw [ha] at h2
      obtain ⟨htb, htbid⟩ := findTxIn_some hb
      obtain ⟨hta, htaid⟩ := findTxIn_some ha
      exact ⟨(Except.ok.inj h2).symm, ⟨tb, htb, htbid⟩, ⟨ta, hta, htaid⟩⟩

theorem validateAccIds_ok {st : DB} (ids : List ℕ) :
    ∀ (processed : List ℕ) (acc res : List Tx),
      validateAccIds st processed acc ids = .ok res →
      (∀ t ∈ acc, t ∈ st.accounting) → ∀ t ∈ res, t ∈ st.accounting := by
  induction ids with
  | nil =>
    intro processed acc res h hacc
    have he : acc = res := Except.ok.inj h
    intro t ht
    exact hacc t (he ▸ ht)
  | cons i rest ih =>
    intro processed acc res h hacc
    unfold validateAccIds at h
    by_cases hdup : i ∈ processed
    · rw [if_pos hdup] at h
      exact ih processed acc res h hacc
    rw [if_neg hdup] at h
    cases hf : findTxIn st.accounting i with
    | none => rw [hf] at h; exact absurd h (by simp)
    | some t0 =>
      rw [hf] at h
      have h2 : (if pairsHasAcc st.pairs i = true then
          (Except.error (ApiErr.alreadyReconciled i) : Except ApiErr (List Tx))
        else validateAccIds st (processed ++ [i]) (acc ++ [t0]) rest) = Except.ok res := h
      by_cases hha : pairsHasAcc st.pairs i = true
      · rw [if_pos hha] at h2; exact absurd h2 (by simp)
      rw [if_neg hha] at h2
      apply ih (processed ++ [i]) (acc ++ [t0]) res h2
      intro t2 ht2
      rcases List.mem_append.mp ht2 with h3 | h3
      · exact hacc t2 h3
      · have he : t2 = t0 := by simpa using h3
        rw [he]
        exact (findTxIn_some hf).1

theorem validateBankIds_ok {st : DB} (ids : List ℕ) :
    ∀ (processed : List ℕ) (acc res : List Tx),
      validateBankIds st processed acc ids = .ok res →
      (∀ t ∈ acc, t ∈ st.bank) → ∀ t ∈ res, t ∈ st.bank := by
  induction ids with
  | nil =>
    intro processed acc res h hacc
    have he : acc = res := Except.ok.inj h
    intro t ht
    exact hacc t (he ▸ ht)
  | cons i rest ih =>
    intro processed acc res h hacc
    unfold validateBankIds at h
    by_cases hdup : i ∈ processed
    · rw [if_pos hdup] at h
      exact ih processed acc res h hacc
    rw [if_neg hdup] at h
    cases hf : findTxIn st.bank i with
    | none => rw [hf] at h; exact absurd h (by simp)
    | some t0 =>
      rw [hf] at h
      have h2 : (if pairsHasBank st.pairs i = true then
          (Except.error (ApiErr.alreadyReconciled i) : Except ApiErr (List Tx))
        else validateBankIds st (processed ++ [i]) (acc ++ [t0]) rest) = Except.ok res := h
      by_cases hha : pairsHasBank st.pairs i = true
      · rw [if_pos hha] at h2; exact absurd h2 (by simp)
      rw [if_neg hha] at h2
      apply ih (processed ++ [i]) (acc ++ [t0]) res h2
      intro t2 ht2
      rcases List.mem_append.mp ht2 with h3 | h3
      · exact hacc t2 h3
      · have he : t2 = t0 := by simpa using h3
        rw [he]
        exact (findTxIn_some hf).1

theorem manyToOneE_ok {st : DB} {b : ℕ} {ids : List ℕ} {res : List Tx}
    (h : manyToOneE st b ids = .ok res) :
    (∃ t ∈ st.bank, t.id = b) ∧ ∀ t ∈ res, t ∈ st.accounting := by
  unfold manyToOneE at h
  by_cases he : ids.isEmpty = true
  · rw [if_pos he] at h; exact absurd h (by simp)
  rw [if_neg he] at h
  cases hb : findTxIn st.bank b with
  | none => rw [hb] at h; exact absurd h (by simp)
  | some tb =>
    rw [hb] at h
    have h2 : (if pairsHasBank st.pairs b = true then
        (Except.error (ApiErr.alreadyReconciled b) : Except ApiErr (List Tx))
      else validateAccIds st [] [] ids) = .ok res := h
    by_cases hp : pairsHasBank st.pairs b = true
    · rw [if_pos hp] at h2; exact absurd h2 (by simp)
    rw [if_neg hp] at h2
    obtain ⟨htb, htbid⟩ := findTxIn_some hb
    refine ⟨⟨tb, htb, htbid⟩, validateAccIds_ok ids [] [] res h2 ?_⟩
    intro t ht
    simp at ht

theorem oneToManyE_ok {st : DB} {a : ℕ} {ids : List ℕ} {res : List Tx}
    (h : oneToManyE st a ids = .ok res) :
    (∃ t ∈ st.accounting, t.id = a) ∧ ∀ t ∈ res, t ∈ st.bank := by
  unfold oneToManyE at h
  by_cases he : ids.isEmpty = true
  · rw [if_pos he] at h; exact absurd h (by simp)
  rw [if_neg he] at h
  cases ha : findTxIn st.accounting a with
  | none => rw [ha] at h; exact absurd h (by simp)
  | some ta =>
    rw [ha] at h
    have h2 : (if pairsHasAcc st.pairs a = true then
        (Except.error (ApiErr.alreadyReconciled a) : Except ApiErr (List Tx))
      else validateBankIds st [] [] ids) = .ok res := h
    by_cases hp : pairsHasAcc st.pairs a = true
    · rw [if_pos hp] at h2; exact absurd h2 (by simp)
    rw [if_neg hp] at h2
    obtain ⟨hta, htaid⟩ := findTxIn_some ha
    refine ⟨⟨ta, hta, htaid⟩, validateBankIds_ok ids [] [] res h2 ?_⟩
    intro t ht
    simp at ht

theorem mem_reconcileData_sides {L S : List Tx} {x y : Tx}
    (h : (x, y) ∈ reconcileData L S) : x ∈ L ∧ y ∈ S := by
  obtain ⟨k, h1, h2, _⟩ := mem_reconcileData h
  exact ⟨mem_of_mem_withOrd h1, mem_of_mem_withOrd h2⟩

theorem commitLoop_mem : ∀ (l : List (Tx × Tx)) (ca cb : List ℕ) (q : Pair),
    q ∈ commitLoop l ca cb → ∃ p ∈ l, q = Pair.mk p.2.id p.1.id := by
  intro l
  induction l with
  | nil => intro ca cb q h; simp [commitLoop] at h
  | cons p rest ih =>
    intro ca cb q h
    unfold commitLoop at h
    by_cases hc : p.1.id ∉ ca ∧ p.2.id ∉ cb
    · rw [if_pos hc] at h
      rcases List.mem_cons.mp h with h1 | h1
      · exact ⟨p, List.mem_cons_self _ _, h1⟩
      · obtain ⟨p2, hp2, hq⟩ := ih _ _ q h1
        exact ⟨p2, List.mem_cons_of_mem _ hp2, hq⟩
    · rw [if_neg hc] at h
      obtain ⟨p2, hp2, hq⟩ := ih _ _ q h
      exact ⟨p2, List.mem_cons_of_mem _ hp2, hq⟩

theorem ledgerRow_eq (t : Tx) : ledgerRow t = t := by
  unfold ledgerRow
  rcases le_or_lt 0 t.amount with h | h
  · rw [if_pos h, if_neg (not_lt.mpr h), sub_zero]
  · rw [if_neg (not_le.mpr h), if_pos h, zero_sub, neg_neg]

theorem map_ledgerRow (l : List Tx) : l.map ledgerRow = l := by
  have h : ledgerRow = id := funext ledgerRow_eq
  rw [h, List.map_id]

theorem autoNewPairs_mem {st : DB} {q : Pair} (h : q ∈ autoNewPairs st) :
    (∃ t ∈ st.bank, t.id = q.bankId) ∧ (∃ t ∈ st.accounting, t.id = q.accId) := by
  simp only [autoNewPairs] at h
  by_cases hemp : ((unmatchedAcc st).isEmpty || (unmatchedBank st).isEmpty) = true
  · rw [if_pos hemp] at h; simp at h
  rw [if_neg hemp, map_ledgerRow] at h
  obtain ⟨p, hp, hq⟩ := commitLoop_mem _ _ _ q h
  have hps : ((p.1, p.2) : Tx × Tx) ∈ reconcileData (unmatchedAcc st) (unmatchedBank st) := hp
  obtain ⟨hx, hy⟩ := mem_reconcileData_sides hps
  have h1 : p.1 ∈ st.accounting := by
    unfold unmatchedAcc at hx
    exact (List.mem_filter.mp hx).1
  have h2 : p.2 ∈ st.bank := by
    unfold unmatchedBank at hy
    exact (List.mem_filter.mp hy).1
  rw [hq]
  exact ⟨⟨p.2, h2, rfl⟩, ⟨p.1, h1, rfl⟩⟩

/-- Claim C10: every operation of the API preserves the invariant that each
committed pair references a stored bank transaction id and a stored
accounting transaction id (file upload clears the pairs, the manual endpoints
validate existence before appending, the automatic matcher builds pairs only
from currently stored records, clear-data empties everything). -/
theorem pairs_reference_existing_transactions_invariant (st : DB) (hwf : wfDB st) :
    (∀ (side : Side) (txs : List Tx), wfDB (uploadCommit st side txs)) ∧
    (∀ (b a : ℕ), wfDB (reconcileManual st b a).1) ∧
    (∀ (b : ℕ) (ids : List ℕ), wfDB (manyToOne st b ids).1) ∧
    (∀ (a : ℕ) (ids : List ℕ), wfDB (oneToMany st a ids).1) ∧
    wfDB (autoStep st) ∧ wfDB (clearAllData st) := by
  refine ⟨?_, ?_, ?_, ?_, ?_, ?_⟩
  · intro side txs p hp
    cases side <;> simp [uploadCommit] at hp
  · intro b a
    unfold reconcileManual
    cases hE : reconcileManualE st b a with
    | error e => exact hwf
    | ok p =>
      obtain ⟨hp, hb, ha⟩ := reconcileManualE_ok hE
      intro q hq
      rcases List.mem_append.mp hq with h1 | h1
      · exact hwf q h1
      · have he : q = p := by simpa using h1
        rw [he, hp]
        exact ⟨hb, ha⟩
  · intro b ids
    unfold manyToOne
    cases hE : manyToOneE st b ids with
    | error e => exact hwf
    | ok accTxs =>
      obtain ⟨hb, hsub⟩ := manyToOneE_ok hE
      intro q hq
      rcases List.mem_append.mp hq with h1 | h1
      · exact hwf q h1
      · obtain ⟨t, ht, hqt⟩ := List.mem_map.mp h1
        rw [← hqt]
        exact ⟨hb, ⟨t, hsub t ht, rfl⟩⟩
  · intro a ids
    unfold oneToMany
    cases hE : oneToManyE st a ids with
    | error e => exact hwf
    | ok bankTxs =>
      obtain ⟨ha, hsub⟩ := oneToManyE_ok hE
      intro q hq
      rcases List.mem_append.mp hq with h1 | h1
      · exact hwf q h1
      · obtain ⟨t, ht, hqt⟩ := List.mem_map.mp h1
        rw [← hqt]
        exact ⟨⟨t, hsub t ht, rfl⟩, ha⟩
  · intro q hq
    rcases List.mem_append.mp hq with h1 | h1
    · exact hwf q h1
    · exact @autoNewPairs_mem st q h1
  · intro q hq
    simp [clearAllData] at hq

/-- Claim C10, witness at a concrete well-formed store. -/
theorem pairs_reference_existing_transactions_invariant_witness :
    wfDB (autoStep (DB.mk [Tx.mk 1 1 5] [Tx.mk 2 1 5] [Pair.mk 1 2])) ∧
      wfDB (clearAllData (DB.mk [Tx.mk 1 1 5] [Tx.mk 2 1 5] [Pair.mk 1 2])) :=
  ⟨(pairs_reference_existing_transactions_invariant
      (DB.mk [Tx.mk 1 1 5] [Tx.mk 2 1 5] [Pair.mk 1 2]) (by decide)).2.2.2.2.1,
    (pairs_reference_existing_transactions_invariant
      (DB.mk [Tx.mk 1 1 5] [Tx.mk 2 1 5] [Pair.mk 1 2]) (by decide)).2.2.2.2.2⟩

/-! ## Claim C9: SIESA ingestion fails with HeaderNotFound, never crashes. -/

theorem findHeaderIdxAux_none : ∀ (l : List RawRow) (i : ℕ),
    (∀ r ∈ l, hasHeaderKeys r = false) → findHeaderIdxAux i l = none := by
  intro l
  induction l with
  | nil => intro i _; rfl
  | cons r rest ih =>
    intro i h
    unfold findHeaderIdxAux
    rw [if_neg (by simp [h r (List.mem_cons_self _ _)])]
    exact ih (i + 1) (fun r2 h2 => h r2 (List.mem_cons_of_mem _ h2))

/-- Claim C9: when none of the first 50 scanned rows (after empty-row
cleanup) contains all required header keywords, the SIESA transform fails
with the HeaderNotFound diagnosis, the caught error makes the function
return the no-records failure value, and no canonical records are
emitted; the function is total, so no unhandled crash occurs. -/
theorem siesa_header_not_found (t : List RawRow)
    (h : ∀ r ∈ (dropEmptyRows t).take 50, hasHeaderKeys r = false) :
    siesaCore t = .error .headerNotFound ∧ transform_siesa_auxiliary t = none := by
  have hf : findHeaderIdx (dropEmptyRows t) = none := findHeaderIdxAux_none _ 0 h
  have hcore : siesaCore t = .error .headerNotFound := by
    simp only [siesaCore]
    rw [hf]
  refine ⟨hcore, ?_⟩
  unfold transform_siesa_auxiliary
  rw [hcore]

/-- Claim C9, witness on a concrete keyword-free table. -/
theorem siesa_header_not_found_witness :
    siesaCore [[some "hello", none]] = .error .headerNotFound ∧
      transform_siesa_auxiliary [[some "hello", none]] = none :=
  siesa_header_not_found [[some "hello", none]] (by decide)

/-! ## Claim C5: the automatic matcher is idempotent. -/

theorem pairsHasAcc_iff (ps : List Pair) (i : ℕ) :
    pairsHasAcc ps i = true ↔ i ∈ ps.map Pair.accId := by
  unfold pairsHasAcc
  rw [List.any_eq_true]
  constructor
  · rintro ⟨p, hp, hpi⟩
    rw [decide_eq_true_eq] at hpi
    exact List.mem_map.mpr ⟨p, hp, hpi⟩
  · intro h
    obtain ⟨p, hp, hpi⟩ := List.mem_map.mp h
    exact ⟨p, hp, by rw [decide_eq_true_eq]; exact hpi⟩

theorem pairsHasBank_iff (ps : List Pair) (i : ℕ) :
    pairsHasBank ps i = true ↔ i ∈ ps.map Pair.bankId := by
  unfold pairsHasBank
  rw [List.any_eq_true]
  constructor
  · rintro ⟨p, hp, hpi⟩
    rw [decide_eq_true_eq] at hpi
    exact List.mem_map.mpr ⟨p, hp, hpi⟩
  · intro h
    obtain ⟨p, hp, hpi⟩ := List.mem_map.mp h
    exact ⟨p, hp, by rw [decide_eq_true_eq]; exact hpi⟩

theorem pairsHasAcc_false_not_mem {ps : List Pair} {i : ℕ}
    (h : pairsHasAcc ps i = false) : i ∉ ps.map Pair.accId := by
  intro hmem
  rw [(pairsHasAcc_iff ps i).mpr hmem] at h
  exact Bool.noConfusion h

theorem pairsHasBank_false_not_mem {ps : List Pair} {i : ℕ}
    (h : pairsHasBank ps i = false) : i ∉ ps.map Pair.bankId := by
  intro hmem
  rw [(pairsHasBank_iff ps i).mpr hmem] at h
  exact Bool.noConfusion h

theorem mem_unmatchedAcc {st : DB} {t : Tx} :
    t ∈ unmatchedAcc st ↔ t ∈ st.accounting ∧ pairsHasAcc st.pairs t.id = false := by
  unfold unmatchedAcc
  rw [List.mem_filter]
  simp

theorem mem_unmatchedBank {st : DB} {t : Tx} :
    t ∈ unmatchedBank st ↔ t ∈ st.bank ∧ pairsHasBank st.pairs t.id = false := by
  unfold unmatchedBank
  rw [List.mem_filter]
  simp

theorem filterMap_proj_sublist {α β γ : Type} (f : α → Option β) (g : β → γ) (h : α → γ)
    (hfg : ∀ a b, f a = some b → g b = h a) :
    ∀ (l : List α), ((l.filterMap f).map g).Sublist (l.map h) := by
  intro l
  induction l with
  | nil => simp
  | cons a l2 ih =>
    cases hfa : f a with
    | none =>
      rw [List.filterMap_cons_none hfa, List.map_cons]
      exact ih.cons _
    | some b =>
      rw [List.filterMap_cons_some hfa, List.map_cons, List.map_cons, hfg a b hfa]
      exact ih.cons₂ _

theorem reconcileData_fst_nodup {L S : List Tx} (hL : (L.map Tx.id).Nodup) :
    ((reconcileData L S).map (fun p => p.1.id)).Nodup := by
  have hsub : ((reconcileData L S).map (fun p => p.1.id)).Sublist
      ((withOrd L).map (fun e : Tx × ℕ => e.1.id)) := by
    apply filterMap_proj_sublist
    intro e p hp
    cases hf : (withOrd S).find? (keyHit e.1.amount e.2) with
    | none => rw [hf] at hp; simp at hp
    | some e2 =>
      rw [hf] at hp
      simp only [Option.map_some', Option.some.injEq] at hp
      rw [← hp]
  have hmap : (withOrd L).map (fun e : Tx × ℕ => e.1.id) = (sortTx L).map Tx.id := by
    unfold withOrd
    rw [show (fun e : Tx × ℕ => e.1.id) = Tx.id ∘ Prod.fst from rfl, ← List.map_map,
      ccAux_map_fst]
  rw [hmap] at hsub
  exact List.Nodup.sublist hsub (((sortTx_perm L).map Tx.id).nodup_iff.mpr hL)

theorem reconcileData_snd_nodup {L S : List Tx} (hL : (L.map Tx.id).Nodup)
    (hS : (S.map Tx.id).Nodup) :
    ((reconcileData L S).map (fun p => p.2.id)).Nodup := by
  have hRnd : (reconcileData L S).Nodup :=
    List.Nodup.of_map _ (reconcileData_fst_nodup (S := S) hL)
  apply List.Nodup.map_on _ hRnd
  intro p1 hp1 p2 hp2 heq
  obtain ⟨k1, hx1, hy1, ha1⟩ := mem_reconcileData (show ((p1.1, p1.2) : Tx × Tx) ∈ _ from hp1)
  obtain ⟨k2, hx2, hy2, ha2⟩ := mem_reconcileData (show ((p2.1, p2.2) : Tx × Tx) ∈ _ from hp2)
  have hysame : p1.2 = p2.2 :=
    List.inj_on_of_nodup_map hS (mem_of_mem_withOrd hy1) (mem_of_mem_withOrd hy2) heq
  have hSnd : (sortTx S).Nodup := (sortTx_perm S).nodup_iff.mpr (List.Nodup.of_map _ hS)
  have hk : k1 = k2 := by
    apply ccAux_nodup_ord_inj (sortTx S) [] hSnd p1.2 k1 k2 hy1
    rw [hysame]
    exact hy2
  have hxsame : p1.1 = p2.1 := by
    apply ccAux_amount_ord_inj (sortTx L) [] k1 p1.1 p2.1 hx1
    · rw [hk]; exact hx2
    · rw [← ha1, hysame, ha2]
  have he1 : p1 = (p1.1, p1.2) := rfl
  have he2 : p2 = (p2.1, p2.2) := rfl
  rw [he1, he2, hxsame, hysame]

theorem commitLoop_all : ∀ (l : List (Tx × Tx)) (ca cb : List ℕ),
    (∀ p ∈ l, p.1.id ∉ ca) → (∀ p ∈ l, p.2.id ∉ cb) →
    (l.map (fun p => p.1.id)).Nodup → (l.map (fun p => p.2.id)).Nodup →
    commitLoop l ca cb = l.map (fun p => Pair.mk p.2.id p.1.id) := by
  intro l
  induction l with
  | nil => intro ca cb _ _ _ _; rfl
  | cons p rest ih =>
    intro ca cb h1 h2 n1 n2
    unfold commitLoop
    rw [if_pos ⟨h1 p (List.mem_cons_self _ _), h2 p (List.mem_cons_self _ _)⟩,
      List.map_cons]
    congr 1
    have hn1 : p.1.id ∉ rest.map (fun p => p.1.id) := by
      have hm := n1
      rw [List.map_cons] at hm
      exact (List.nodup_cons.mp hm).1
    have hn2 : p.2.id ∉ rest.map (fun p => p.2.id) := by
      have hm := n2
      rw [List.map_cons] at hm
      exact (List.nodup_cons.mp hm).1
    apply ih
    · intro q hq hmem
      rcases List.mem_append.mp hmem with hm | hm
      · exact h1 q (List.mem_cons_of_mem _ hq) hm
      · have he : q.1.id = p.1.id := by simpa using hm
        exact hn1 (he ▸ List.mem_map_of_mem (fun p => p.1.id) hq)
    · intro q hq hmem
      rcases List.mem_append.mp hmem with hm | hm
      · exact h2 q (List.mem_cons_of_mem _ hq) hm
      · have he : q.2.id = p.2.id := by simpa using hm
        exact hn2 (he ▸ List.mem_map_of_mem (fun p => p.2.id) hq)
    · have hm := n1
      rw [List.map_cons] at hm
      exact (List.nodup_cons.mp hm).2
    · have hm := n2
      rw [List.map_cons] at hm
      exact (List.nodup_cons.mp hm).2

theorem unmatchedAcc_append (st : DB) (ps2 : List Pair) :
    unmatchedAcc { st with pairs := st.pairs ++ ps2 } =
      (unmatchedAcc st).filter (fun t => !(pairsHasAcc ps2 t.id)) := by
  unfold unmatchedAcc
  rw [List.filter_filter]
  apply List.filter_congr
  intro t _
  unfold pairsHasAcc
  rw [List.any_append, Bool.not_or, Bool.and_comm]

theorem unmatchedBank_append (st : DB) (ps2 : List Pair) :
    unmatchedBank { st with pairs := st.pairs ++ ps2 } =
      (unmatchedBank st).filter (fun t => !(pairsHasBank ps2 t.id)) := by
  unfold unmatchedBank
  rw [List.filter_filter]
  apply List.filter_congr
  intro t _
  unfold pairsHasBank
  rw [List.any_append, Bool.not_or, Bool.and_comm]

theorem withOrd_range (l : List Tx) (a : ℚ) (k : ℕ) :
    (∃ x, (x, k) ∈ withOrd l ∧ x.amount = a) ↔ k < l.countP (sameAmt a) := by
  unfold withOrd
  rw [ccAux_range a (sortTx l) [], List.countP_nil, (sortTx_perm l).countP_eq (sameAmt a)]
  constructor
  · rintro ⟨_, h⟩
    omega
  · intro h
    exact ⟨Nat.zero_le _, by omega⟩

/-- Claim C5: with distinct transaction ids on each side, running the
automatic matcher a second time, on the unmatched views recomputed from the
state left by the first run, commits zero new pairs: for each amount value
the first run consumes the whole smaller bucket, so no (amount, ordinal) key
survives on both sides. -/
theorem auto_match_idempotent (st : DB)
    (hb : (st.bank.map Tx.id).Nodup) (ha : (st.accounting.map Tx.id).Nodup) :
    autoNewPairs (autoStep st) = [] := by
  by_cases h0 : ((unmatchedAcc st).isEmpty || (unmatchedBank st).isEmpty) = true
  · have hnew : autoNewPairs st = [] := by
      simp only [autoNewPairs]
      rw [if_pos h0]
    have hst : autoStep st = st := by
      unfold autoStep
      rw [hnew, List.append_nil]
    rw [hst, hnew]
  · have huaid : ((unmatchedAcc st).map Tx.id).Nodup := by
      apply List.Nodup.sublist _ ha
      exact (List.filter_sublist _).map Tx.id
    have hubid : ((unmatchedBank st).map Tx.id).Nodup := by
      apply List.Nodup.sublist _ hb
      exact (List.filter_sublist _).map Tx.id
    have hP1 : ∀ p ∈ reconcileData (unmatchedAcc st) (unmatchedBank st),
        p.1.id ∉ st.pairs.map Pair.accId := by
      intro p hp
      have hx := (mem_reconcileData_sides (show ((p.1, p.2) : Tx × Tx) ∈ _ from hp)).1
      exact pairsHasAcc_false_not_mem (mem_unmatchedAcc.mp hx).2
    have hP2 : ∀ p ∈ reconcileData (unmatchedAcc st) (unmatchedBank st),
        p.2.id ∉ st.pairs.map Pair.bankId := by
      intro p hp
      have hy := (mem_reconcileData_sides (show ((p.1, p.2) : Tx × Tx) ∈ _ from hp)).2
      exact pairsHasBank_false_not_mem (mem_unmatchedBank.mp hy).2
    have hN1 : ((reconcileData (unmatchedAcc st) (unmatchedBank st)).map
        (fun p => p.1.id)).Nodup := reconcileData_fst_nodup huaid
    have hN2 : ((reconcileData (unmatchedAcc st) (unmatchedBank st)).map
        (fun p => p.2.id)).Nodup := reconcileData_snd_nodup huaid hubid
    have hnewEq : autoNewPairs st =
        (reconcileData (unmatchedAcc st) (unmatchedBank st)).map
          (fun p => Pair.mk p.2.id p.1.id) := by
      simp only [autoNewPairs]
      rw [if_neg h0, map_ledgerRow]
      exact commitLoop_all _ _ _ hP1 hP2 hN1 hN2
    have hua2 : unmatchedAcc (autoStep st) =
        (unmatchedAcc st).filter (fun t => !(pairsHasAcc (autoNewPairs st) t.id)) :=
      unmatchedAcc_append st (autoNewPairs st)
    have hub2 : unmatchedBank (autoStep st) =
        (unmatchedBank st).filter (fun t => !(pairsHasBank (autoNewPairs st) t.id)) :=
      unmatchedBank_append st (autoNewPairs st)
    have hkey : reconcileData ((unmatchedAcc (autoStep st)).map ledgerRow)
        (unmatchedBank (autoStep st)) = [] := by
      rw [map_ledgerRow, hua2, hub2]
      by_contra hne
      obtain ⟨pr, hpr⟩ := List.exists_mem_of_ne_nil _ hne
      obtain ⟨k, hx2, hy2, hamt⟩ := mem_reconcileData (show ((pr.1, pr.2) : Tx × Tx) ∈ _ from hpr)
      have hxm := List.mem_filter.mp (mem_of_mem_withOrd hx2)
      have hym := List.mem_filter.mp (mem_of_mem_withOrd hy2)
      rcases le_or_lt ((unmatchedAcc st).countP (sameAmt pr.1.amount))
          ((unmatchedBank st).countP (sameAmt pr.1.amount)) with hle | hlt
      · obtain ⟨k0, hk0⟩ := exists_ord_of_mem hxm.1
        have hb0 : k0 < (unmatchedAcc st).countP (sameAmt pr.1.amount) :=
          (withOrd_range _ _ k0).mp ⟨pr.1, hk0, rfl⟩
        obtain ⟨y0, hy0, hy0a⟩ := (withOrd_range _ _ k0).mpr (lt_of_lt_of_le hb0 hle)
        have hpair : (pr.1, y0) ∈ reconcileData (unmatchedAcc st) (unmatchedBank st) :=
          pair_of_keys hk0 hy0 hy0a
        have hmem : Pair.mk y0.id pr.1.id ∈ autoNewPairs st := by
          rw [hnewEq]
          exact List.mem_map_of_mem _ hpair
        have htrue : pairsHasAcc (autoNewPairs st) pr.1.id = true :=
          (pairsHasAcc_iff _ _).mpr (List.mem_map.mpr ⟨_, hmem, rfl⟩)
        have hfls := hxm.2
        rw [htrue] at hfls
        exact absurd hfls (by decide)
      · obtain ⟨j, hj⟩ := exists_ord_of_mem hym.1
        have hb0 : j < (unmatchedBank st).countP (sameAmt pr.1.amount) :=
          (withOrd_range _ _ j).mp ⟨pr.2, hj, hamt⟩
        obtain ⟨x0, hx0, hx0a⟩ := (withOrd_range _ _ j).mpr (lt_trans hb0 hlt)
        have hpair : (x0, pr.2) ∈ reconcileData (unmatchedAcc st) (unmatchedBank st) := by
          apply pair_of_keys hx0 hj
          rw [hamt, ← hx0a]
        have hmem : Pair.mk pr.2.id x0.id ∈ autoNewPairs st := by
          rw [hnewEq]
          exact List.mem_map_of_mem _ hpair
        have htrue : pairsHasBank (autoNewPairs st) pr.2.id = true :=
          (pairsHasBank_iff _ _).mpr (List.mem_map.mpr ⟨_, hmem, rfl⟩)
        have hfls := hym.2
        rw [htrue] at hfls
        exact absurd hfls (by decide)
    simp only [autoNewPairs]
    by_cases h2 : ((unmatchedAcc (autoStep st)).isEmpty ||
        (unmatchedBank (autoStep st)).isEmpty) = true
    · rw [if_pos h2]
    · rw [if_neg h2, hkey]
      rfl

/-- Claim C5, witness: after one automatic run over a surplus bank bucket,
the second run commits nothing. -/
theorem auto_match_idempotent_witness :
    autoNewPairs (autoStep (DB.mk [Tx.mk 1 1 100, Tx.mk 2 5 100] [Tx.mk 3 1 100] [])) = [] :=
  auto_match_idempotent (DB.mk [Tx.mk 1 1 100, Tx.mk 2 5 100] [Tx.mk 3 1 100] [])
    (by decide) (by decide)

end BankRecon
